import Mathlib

/-!
Verification development for the NBA_Draft_Futures repository.

The Python sources under `src/` are embedded shallowly: dataframes become
lists of structures, floats become rationals (with an explicit extended-value
type where IEEE non-finite values matter), and the pure row-processing
functions are translated function-by-function.  Network fetches are modelled
by passing the fetch result (or its failure) as an argument.
-/

namespace NDF

/-! ## Name canonicalizer (`_canonicalize` in `build_data.py` and
`ingest_salaries_from_kaggle.py`).

The Python function is
```
name = unicodedata.normalize("NFKD", name)
name = "".join(ch for ch in name if not unicodedata.combining(ch))
name = name.replace(".", "").replace(",", "").replace("'", "")
name = name.replace("-", " ")
name = re.sub(r"\x7bback}b(jr|sr|ii|iii|iv|v)\x7bback}b", "", name, flags=re.IGNORECASE)
name = re.sub(r"[^a-zA-Z0-9 ]", "", name)
name = re.sub(r"\s+", " ", name).strip().lower()
return name
```
with an `isinstance(name, str)` guard returning the empty string on
non-string input.
-/

/-- Model of `unicodedata.combining ch != 0` for the characters exercised in
this development: the only combining mark produced by our `nfkdChar` table is
U+0301 (combining acute accent). -/
def isCombining (c : Char) : Bool := c.val == 0x301

/-- Model of the NFKD decomposition table of `unicodedata.normalize("NFKD", ·)`
restricted to the characters exercised in this development: `é` (U+00E9) and
`É` (U+00C9) decompose to the base letter followed by the combining acute
accent U+0301; every other character considered here is its own NFKD
decomposition. -/
def nfkdChar (c : Char) : List Char :=
  if c = Char.ofNat 0xE9 then [Char.ofNat 0x65, Char.ofNat 0x301]
  else if c = Char.ofNat 0xC9 then [Char.ofNat 0x45, Char.ofNat 0x301]
  else [c]

/-- A regex word character (`\w` over the ASCII alphanumerics that can occur at
the suffix-removal stage): letters, digits, or underscore. -/
def isWordChar (c : Char) : Bool := c.isAlphanum || c == Char.ofNat 95

/-- The generational-suffix words of the regex `(jr|sr|ii|iii|iv|v)`, in
lowercase. -/
def suffixTokens : List (List Char) :=
  [['j', 'r'], ['s', 'r'], ['i', 'i'], ['i', 'i', 'i'], ['i', 'v'], ['v']]

/-- Case-insensitive test of a maximal word-character run against the suffix
alternatives (the regex is `IGNORECASE`). -/
def isSuffixToken (tok : List Char) : Bool := suffixTokens.contains (tok.map Char.toLower)

/-- `re.sub(r"\x7bback}b(jr|sr|ii|iii|iv|v)\x7bback}b", "", name, flags=re.IGNORECASE)`.
Since every alternative consists solely of word characters and is anchored by
`\x7bback}b` on both sides, a match is exactly a maximal run of word characters
that equals one of the alternatives case-insensitively, and the substitution
deletes that whole run.  `tok` accumulates the current (still open) run of
word characters. -/
def removeSuffixTokens (tok : List Char) : List Char → List Char
  | [] => if isSuffixToken tok then [] else tok
  | c :: cs =>
    if isWordChar c then removeSuffixTokens (tok ++ [c]) cs
    else (if isSuffixToken tok then [] else tok) ++ c :: removeSuffixTokens [] cs

/-- `re.sub(r"\s+", " ", name)` specialised to the space-only whitespace that
can remain after the `[^a-zA-Z0-9 ]` scrub: collapse runs of spaces to a
single space.  The flag records whether the previous character was a space. -/
def collapseSpaces : List Char → Bool → List Char
  | [], _ => []
  | c :: cs, prevSpace =>
    if c == ' ' then
      (if prevSpace then collapseSpaces cs true else ' ' :: collapseSpaces cs true)
    else c :: collapseSpaces cs false

/-- `str.strip()` for strings whose only whitespace is the space character. -/
def stripSpace (l : List Char) : List Char :=
  ((l.dropWhile (fun c => c == ' ')).reverse.dropWhile (fun c => c == ' ')).reverse

/-- The canonicalization pipeline on a list of characters, stage by stage in
the source order. -/
def canonList (s : List Char) : List Char :=
  let s1 := (s.map nfkdChar).flatten
  let s2 := s1.filter (fun c => !isCombining c)
  let s3 := s2.filter (fun c => !(c == '.' || c == ',' || c == Char.ofNat 39))
  let s4 := s3.map (fun c => if c == '-' then ' ' else c)
  let s5 := removeSuffixTokens [] s4
  let s6 := s5.filter (fun c => c.isAlphanum || c == ' ')
  let s7 := stripSpace (collapseSpaces s6 false)
  s7.map Char.toLower

/-- `_canonicalize` on an actual string. -/
def _canonicalize (s : String) : String := ⟨canonList s.data⟩

/-- The `isinstance(name, str)` guard: a non-string input (modelled as `none`)
yields the empty string rather than an error. -/
def canonicalizeValue : Option String → String
  | some s => _canonicalize s
  | none => ""

/-- The apostrophe character, U+0027. -/
def apos : String := ⟨[Char.ofNat 39]⟩

/-- Characters that can occur in a canonical form: lowercase ASCII letters,
digits, and the space. -/
def goodChar (c : Char) : Bool := c.isLower || c.isDigit || c == ' '

/-- Two adjacent characters are not both spaces (the invariant the
whitespace-collapsing stage establishes). -/
def spacedOK (a b : Char) : Prop := ¬(a = ' ' ∧ b = ' ')

/-! ## Pick buckets and the arbitrage zone (`process_arbitrage.py`). -/

/-- The `PickBucket` literal type `["01-05", "06-10", "11-20", "21-30",
"31-45", "46-60"]`. -/
inductive Bucket where
  | b01_05 | b06_10 | b11_20 | b21_30 | b31_45 | b46_60
deriving DecidableEq, Repr

/-- `assign_bucket(slot)`: the chain of range tests, falling through to
`"46-60"`. -/
def assign_bucket (slot : ℤ) : Bucket :=
  if 1 ≤ slot ∧ slot ≤ 5 then .b01_05
  else if 6 ≤ slot ∧ slot ≤ 10 then .b06_10
  else if 11 ≤ slot ∧ slot ≤ 20 then .b11_20
  else if 21 ≤ slot ∧ slot ≤ 30 then .b21_30
  else if 31 ≤ slot ∧ slot ≤ 45 then .b31_45
  else .b46_60

/-- The range of pick slots each bucket names (from the bucket labels in the
data model: 1-5, 6-10, 11-20, 21-30, 31-45, 46-60). -/
def bucketRange : Bucket → ℤ × ℤ
  | .b01_05 => (1, 5)
  | .b06_10 => (6, 10)
  | .b11_20 => (11, 20)
  | .b21_30 => (21, 30)
  | .b31_45 => (31, 45)
  | .b46_60 => (46, 60)

/-- Membership of a pick slot in a bucket's named range. -/
def inBucketRange (b : Bucket) (p : ℤ) : Prop :=
  (bucketRange b).1 ≤ p ∧ p ≤ (bucketRange b).2

instance (b : Bucket) (p : ℤ) : Decidable (inBucketRange b p) := by
  unfold inBucketRange; infer_instance

/-- The free-agent market price band `{"q25": ..., "q50": ..., "q75": ...}`
returned by `compute_band`. -/
structure Band where
  q25 : ℚ
  q50 : ℚ
  q75 : ℚ
deriving DecidableEq, Repr

/-- The arbitrage zone labels. -/
inductive Zone where
  | BUY | NEUTRAL | SELL
deriving DecidableEq, Repr

/-- The deadband `delta = 0.07` of `build_bucket_table`. -/
def deadband : ℚ := 7 / 100

/-- The `zone(row)` closure of `build_bucket_table`: BUY when the bucket
median is below `q25 * (1 - delta)`, else SELL when above
`q75 * (1 + delta)`, else NEUTRAL. -/
def zoneOf (median : ℚ) (band : Band) : Zone :=
  if median < band.q25 * (1 - deadband) then .BUY
  else if median > band.q75 * (1 + deadband) then .SELL
  else .NEUTRAL

/-- Total order used to compare zones (BUY < NEUTRAL < SELL). -/
def zoneIdx : Zone → ℕ
  | .BUY => 0
  | .NEUTRAL => 1
  | .SELL => 2

/-- One group row of the `grouped` aggregation in `build_bucket_table`:
the per-bucket statistics (`median`/`q25`/`q75` of `cost_per_war_per_season`,
`war_med` of `war_first4`, `cost_med` of `cost_first4`) that the rest of the
function consumes.  The pandas `groupby`/quantile aggregation itself is taken
as input here. -/
structure BucketStats where
  bucket : Bucket
  median : ℚ
  q25 : ℚ
  q75 : ℚ
  warMed : ℚ
  costMed : ℚ
deriving DecidableEq, Repr

/-- One output row of `build_bucket_table`. -/
structure BucketRow where
  stats : BucketStats
  marketQ25 : ℚ
  marketQ50 : ℚ
  marketQ75 : ℚ
  arbitrageZone : Zone
  marketEquivCost4yr : ℚ
  surplus4yr : ℚ
deriving DecidableEq, Repr

/-- `build_bucket_table(picks, band)` from the per-bucket aggregates: attach
the market band columns, the zone classification, the market-equivalent cost
`war_med * band["q50"]` and the surplus `market_equiv_cost_4yr - cost_med`. -/
def build_bucket_table (stats : List BucketStats) (band : Band) : List BucketRow :=
  stats.map (fun s =>
    { stats := s
      marketQ25 := band.q25
      marketQ50 := band.q50
      marketQ75 := band.q75
      arbitrageZone := zoneOf s.median band
      marketEquivCost4yr := s.warMed * band.q50
      surplus4yr := s.warMed * band.q50 - s.costMed })

/-! ## Rookie-window join (`build_pick_outcomes` in `build_data.py`). -/

/-- One row of the war table (`player_war.csv`). -/
structure WarRow where
  playerSlug : String
  playerName : String
  canonicalName : String
  seasonEnd : ℤ
  war : ℚ
deriving DecidableEq, Repr

/-- One row of the cleaned salary table (`player_salary_clean.csv`). -/
structure SalaryRow where
  canonicalName : String
  seasonEnd : ℤ
  salary : ℚ
deriving DecidableEq, Repr

/-- One row of the draft-class table. -/
structure DraftRow where
  seasonEnd : ℤ
  pick : ℤ
  team : String
  playerName : String
  playerSlug : String
  canonicalName : String
deriving DecidableEq, Repr

/-- One row of `pick_outcomes_first4.csv`. -/
structure PickOutcome where
  draftYear : ℤ
  pick : ℤ
  playerSlug : String
  playerName : String
  canonicalName : String
  warFirst4 : ℚ
  costFirst4 : ℚ
deriving DecidableEq, Repr

/-- `df.set_index(keys)[col].to_dict()`: the lookup map built from a keyed
row list; when a key occurs several times the last row wins, as when Python
builds a dict from an iterator. -/
def toDict (rows : List ((String × ℤ) × ℚ)) (k : String × ℤ) : Option ℚ :=
  (rows.reverse.find? (fun e => e.1 == k)).map (fun e => e.2)

/-- The war lookup `(player_slug, season_end) -> war`. -/
def warDict (war : List WarRow) : String × ℤ → Option ℚ :=
  toDict (war.map (fun r => ((r.playerSlug, r.seasonEnd), r.war)))

/-- The salary lookup `(canonical_name, season_end) -> salary`. -/
def salaryDict (salary : List SalaryRow) : String × ℤ → Option ℚ :=
  toDict (salary.map (fun r => ((r.canonicalName, r.seasonEnd), r.salary)))

/-- `range(draft_year + 1, draft_year + 1 + rookie_years)`. -/
def rookieSeasons (draftYear : ℤ) (rookieYears : ℕ) : List ℤ :=
  (List.range rookieYears).map (fun (i : ℕ) => draftYear + 1 + (i : ℤ))

/-- The accumulation loop of `build_pick_outcomes` for one pick: fold over the
rookie seasons, adding `lookup.get(key, 0.0)` each time. -/
def accumLookup (lookup : String × ℤ → Option ℚ) (key : String) (seasons : List ℤ) : ℚ :=
  seasons.foldl (fun acc s => acc + (lookup (key, s)).getD 0) 0

/-- `build_pick_outcomes(draft, war, salary, rookie_years)`: one output row
per draft row, with `war_first4`/`cost_first4` summed over the rookie
window. -/
def build_pick_outcomes (draft : List DraftRow) (war : List WarRow)
    (salary : List SalaryRow) (rookieYears : ℕ) : List PickOutcome :=
  draft.map (fun p =>
    { draftYear := p.seasonEnd
      pick := p.pick
      playerSlug := p.playerSlug
      playerName := p.playerName
      canonicalName := p.canonicalName
      warFirst4 := accumLookup (warDict war) p.playerSlug (rookieSeasons p.seasonEnd rookieYears)
      costFirst4 := accumLookup (salaryDict salary) p.canonicalName (rookieSeasons p.seasonEnd rookieYears) })

/-! ## Pick-cost preparation (`prepare_pick_costs` in `process_arbitrage.py`). -/

/-- One row of `pick_costs_prepared.csv`. -/
structure PreparedPick where
  outcome : PickOutcome
  bucket : Bucket
  costPerWarPerSeason : ℚ
  warPerSeason : ℚ
deriving DecidableEq, Repr

/-- The row enrichment of `prepare_pick_costs`. -/
def enrichPick (p : PickOutcome) : PreparedPick :=
  { outcome := p
    bucket := assign_bucket p.pick
    costPerWarPerSeason := p.costFirst4 / p.warFirst4 / 4
    warPerSeason := p.warFirst4 / 4 }

/-- `prepare_pick_costs`: keep rows with `war_first4 > 0`, assign the bucket
and the per-season rates. -/
def prepare_pick_costs (picks : List PickOutcome) : List PreparedPick :=
  (picks.filter (fun p => decide (0 < p.warFirst4))).map enrichPick

/-! ## Market price band (`prepare_salary_pricing` / `compute_band`).

The `dollars_per_war` column is a pandas float column, so IEEE non-finite
values matter here: they are modelled by an explicit extended-value type with
exact rational finite values (overflow and rounding of finite results are not
modelled). -/

/-- A pandas float cell: a finite rational, an infinity, or NaN. -/
inductive FVal where
  | fin (q : ℚ)
  | posInf
  | negInf
  | nan
deriving DecidableEq, Repr

/-- Finiteness of a float cell. -/
def FVal.isFinite : FVal → Bool
  | .fin _ => true
  | _ => false

/-- `pandas.isna` on a float cell. -/
def FVal.isNan : FVal → Bool
  | .nan => true
  | _ => false

/-- The finite value of a cell (junk 0 on non-finite cells, which the pipeline
never reads). -/
def FVal.toQ : FVal → ℚ
  | .fin q => q
  | _ => 0

/-- IEEE strict greater-than: any comparison with NaN is false. -/
def fgt : FVal → FVal → Bool
  | .fin a, .fin b => decide (b < a)
  | .posInf, .fin _ => true
  | .posInf, .negInf => true
  | .fin _, .negInf => true
  | _, _ => false

/-- IEEE division on float cells (finite quotients kept exact): a nonzero
finite value divided by zero gives a signed infinity, `0/0` and `inf/inf`
give NaN, a finite value divided by an infinity gives zero. -/
def fdiv : FVal → FVal → FVal
  | .nan, _ => .nan
  | _, .nan => .nan
  | .fin a, .fin b =>
    if b = 0 then (if a = 0 then .nan else if 0 < a then .posInf else .negInf)
    else .fin (a / b)
  | .fin _, .posInf => .fin 0
  | .fin _, .negInf => .fin 0
  | .posInf, .fin b => if 0 ≤ b then .posInf else .negInf
  | .negInf, .fin b => if 0 ≤ b then .negInf else .posInf
  | .posInf, .posInf => .nan
  | .posInf, .negInf => .nan
  | .negInf, .posInf => .nan
  | .negInf, .negInf => .nan

/-- `df.replace([np.inf, -np.inf], np.nan)` on one cell. -/
def replaceInfWithNan : FVal → FVal
  | .posInf => .nan
  | .negInf => .nan
  | v => v

/-- One row of `salary_market_raw.csv` (the fields `prepare_salary_pricing`
uses). -/
structure MarketRow where
  canonicalName : String
  seasonEnd : ℤ
  salary : FVal
  war : FVal
deriving DecidableEq, Repr

/-- A market row with its computed `dollars_per_war` column. -/
structure PricedRow where
  canonicalName : String
  seasonEnd : ℤ
  salary : FVal
  war : FVal
  dollarsPerWar : FVal
deriving DecidableEq, Repr

/-- `prepare_salary_pricing`, row for row: keep rows with
`salary > 0 and war > 0`, add `dollars_per_war = salary / war`, replace
infinities with NaN throughout, then `dropna(subset=["dollars_per_war"])`. -/
def prepare_salary_pricing (rows : List MarketRow) : List PricedRow :=
  let pos := rows.filter (fun r => fgt r.salary (.fin 0) && fgt r.war (.fin 0))
  let priced := pos.map (fun r =>
    { canonicalName := r.canonicalName
      seasonEnd := r.seasonEnd
      salary := r.salary
      war := r.war
      dollarsPerWar := fdiv r.salary r.war : PricedRow })
  let replaced := priced.map (fun r =>
    { r with
      salary := replaceInfWithNan r.salary
      war := replaceInfWithNan r.war
      dollarsPerWar := replaceInfWithNan r.dollarsPerWar })
  replaced.filter (fun r => !r.dollarsPerWar.isNan)

/-- `Series.quantile(q)` with pandas' default linear interpolation: sort the
values, take `h = q * (n - 1)` and interpolate between the values at
`floor h` and `floor h + 1`. -/
def quantileQ (l : List ℚ) (q : ℚ) : ℚ :=
  let s := l.mergeSort (fun a b => decide (a ≤ b))
  match s with
  | [] => 0
  | _ :: _ =>
    let h : ℚ := q * ((s.length : ℚ) - 1)
    let i : ℕ := (Int.floor h).toNat
    let lo := s.getD i 0
    let hi := s.getD (i + 1) lo
    lo + (h - (Int.floor h : ℚ)) * (hi - lo)

/-- `compute_band(market)`: the 25th/50th/75th percentiles of the
`dollars_per_war` column. -/
def compute_band (market : List PricedRow) : Band :=
  let vals := market.map (fun r => r.dollarsPerWar.toQ)
  { q25 := quantileQ vals (1 / 4)
    q50 := quantileQ vals (1 / 2)
    q75 := quantileQ vals (3 / 4) }

/-! ## Salary reconciliation (`load_salary_data` in `build_data.py`):
`groupby(["canonical_name", "season_end"], as_index=False)["salary"].max()`.
pandas sorts the output by the group key (the default `sort=True`), so the
reconciled table is the key-sorted list of groups with their maxima. -/

/-- The group key of a salary row. -/
def salKey (r : SalaryRow) : String × ℤ := (r.canonicalName, r.seasonEnd)

/-- Lexicographic order on group keys, as pandas sorts a two-column group
key. -/
def KeyLe (k1 k2 : String × ℤ) : Prop :=
  k1.1 < k2.1 ∨ (k1.1 = k2.1 ∧ k1.2 ≤ k2.2)

instance (k1 k2 : String × ℤ) : Decidable (KeyLe k1 k2) := by
  unfold KeyLe; infer_instance

/-- `KeyLe` as a Boolean comparator for sorting. -/
def keyLEb (k1 k2 : String × ℤ) : Bool := decide (KeyLe k1 k2)

/-- The maximum salary reported for one group key (`⊥` for a key with no
rows, which `reconcile` never queries). -/
def maxSalary (rows : List SalaryRow) (k : String × ℤ) : WithBot ℚ :=
  ((rows.filter (fun r => decide (salKey r = k))).map
    (fun r => (r.salary : WithBot ℚ))).foldr max ⊥

/-- The distinct group keys of a salary table, sorted as pandas sorts the
groupby output. -/
def sortedKeys (rows : List SalaryRow) : List (String × ℤ) :=
  ((rows.map salKey).dedup).mergeSort keyLEb

/-- One output row of the reconciliation: the group key with its maximum
salary. -/
def reconRow (rows : List SalaryRow) (k : String × ℤ) : SalaryRow :=
  { canonicalName := k.1, seasonEnd := k.2, salary := (maxSalary rows k).unbot' 0 }

/-- The reconciliation: one row per distinct `(canonical_name, season_end)`
key, keys sorted, salary the group maximum. -/
def reconcile (rows : List SalaryRow) : List SalaryRow :=
  (sortedKeys rows).map (reconRow rows)

/-! ## Draft-class batch build (`build_draft_data` in `build_data.py`,
`fetch_draft_class` in `bbr_draft.py`). -/

/-- `fetch_draft_class(season_end)` with the network and HTML layers
abstracted into the argument: `none` models the retry loop exhausting its
attempt budget (`response is None`), `some none` models a fetched page with
no table of id `stats`, and `some (some rows)` models a found table whose
parsed rows are `rows`.  In the first two cases the function returns an empty
table, never an error. -/
def fetch_draft_class (parsed : Option (Option (List DraftRow))) : List DraftRow :=
  match parsed with
  | none => []
  | some none => []
  | some (some rows) => rows

/-- `range(start_draft_year, end_draft_year + 1)`. -/
def yearRange (startY endY : ℤ) : List ℤ :=
  (List.range (endY + 1 - startY).toNat).map (fun (i : ℕ) => startY + (i : ℤ))

/-- The fetch loop of `build_draft_data`: try each season in order, keeping
the frame when the fetch returns one and printing a warning (dropping the
season) when it raises. -/
def okFrames (fetch : ℤ → Except String (List DraftRow)) (ys : List ℤ) :
    List (List DraftRow) :=
  ys.foldr
    (fun y acc =>
      match fetch y with
      | .ok df => df :: acc
      | .error _ => acc) []

/-- `build_draft_data`: run the fetch loop, raise
`RuntimeError("No draft data fetched")` when no season produced a frame,
otherwise concatenate the frames and add the `canonical_name` column. -/
def build_draft_data (fetch : ℤ → Except String (List DraftRow)) (startY endY : ℤ) :
    Except String (List DraftRow) :=
  let frames := okFrames fetch (yearRange startY endY)
  if frames.isEmpty then .error "No draft data fetched"
  else .ok (frames.flatten.map (fun r => { r with canonicalName := _canonicalize r.playerName }))

/-! ## Theorems. -/

/-- On picks 1–60, `assign_bucket` lands in a bucket exactly when the pick is
in that bucket's named range. -/
theorem assign_bucket_iff (p : ℤ) (h1 : 1 ≤ p) (h60 : p ≤ 60) (b : Bucket) :
    assign_bucket p = b ↔ inBucketRange b p := by
  unfold assign_bucket inBucketRange bucketRange
  cases b <;> split_ifs <;> simp_all <;> omega

/-- C3: bucket assignment is total and exhaustive: on 1–60, `assign_bucket`
agrees with membership in the six named ranges (so every pick lands in
exactly one bucket); the six ranges are pairwise disjoint; restricted to
1–60 they cover every pick; and every pick outside 1–60 falls into the
last bucket 46-60. -/
theorem assign_bucket_total_exhaustive :
    (∀ p : ℤ, 1 ≤ p → p ≤ 60 → ∀ b : Bucket, assign_bucket p = b ↔ inBucketRange b p)
    ∧ (∀ p : ℤ, ∀ b b' : Bucket, inBucketRange b p → inBucketRange b' p → b = b')
    ∧ (∀ p : ℤ, 1 ≤ p → p ≤ 60 → ∃ b : Bucket, inBucketRange b p)
    ∧ (∀ p : ℤ, p < 1 ∨ 60 < p → assign_bucket p = .b46_60) := by
  refine ⟨fun p h1 h60 b => assign_bucket_iff p h1 h60 b, ?_, ?_, ?_⟩
  · intro p b b' hb hb'
    cases b <;> cases b' <;> first
      | rfl
      | (exfalso
         simp only [inBucketRange, bucketRange] at hb hb'
         omega)
  · intro p h1 h60
    exact ⟨assign_bucket p, (assign_bucket_iff p h1 h60 _).mp rfl⟩
  · intro p hp
    unfold assign_bucket
    split_ifs <;> (try rfl) <;> omega

/-- Witness for `assign_bucket_total_exhaustive` at concrete picks. -/
theorem assign_bucket_total_exhaustive_witness :
    (assign_bucket 17 = .b11_20 ↔ inBucketRange .b11_20 17)
    ∧ (∃ b : Bucket, inBucketRange b 60)
    ∧ assign_bucket 61 = .b46_60 := by
  refine ⟨assign_bucket_total_exhaustive.1 17 (by decide) (by decide) _,
    assign_bucket_total_exhaustive.2.2.1 60 (by decide) (by decide),
    assign_bucket_total_exhaustive.2.2.2 61 (Or.inr (by decide))⟩

/-- C2: the zone of a bucket row is BUY below `q25 * (1 - 0.07)`, SELL above
`q75 * (1 + 0.07)` and NEUTRAL in between; every row of `build_bucket_table`
carries `market_equiv_cost_4yr = war_med * q50` and
`surplus_4yr = market_equiv_cost_4yr - cost_med`; and a bucket with median
cost 2.0M under the band (3.0M, 4.0M, 5.0M) classifies BUY with surplus
`war_med * 4.0M - cost_med`. -/
theorem build_bucket_table_zone_surplus :
    (∀ (m : ℚ) (b : Band), m < b.q25 * (1 - deadband) → zoneOf m b = .BUY)
    ∧ (∀ (m : ℚ) (b : Band), 0 ≤ b.q25 → b.q25 ≤ b.q75 →
        b.q75 * (1 + deadband) < m → zoneOf m b = .SELL)
    ∧ (∀ (m : ℚ) (b : Band), b.q25 * (1 - deadband) ≤ m →
        m ≤ b.q75 * (1 + deadband) → zoneOf m b = .NEUTRAL)
    ∧ (∀ (stats : List BucketStats) (band : Band),
        ∀ row ∈ build_bucket_table stats band,
          row.arbitrageZone = zoneOf row.stats.median band
          ∧ row.marketEquivCost4yr = row.stats.warMed * band.q50
          ∧ row.surplus4yr = row.stats.warMed * band.q50 - row.stats.costMed)
    ∧ zoneOf 2000000 ⟨3000000, 4000000, 5000000⟩ = .BUY
    ∧ (∀ s : BucketStats, s.median = 2000000 →
        ∀ row ∈ build_bucket_table [s] ⟨3000000, 4000000, 5000000⟩,
          row.arbitrageZone = .BUY
          ∧ row.surplus4yr = s.warMed * 4000000 - s.costMed) := by
  refine ⟨?_, ?_, ?_, ?_, by norm_num [zoneOf, deadband], ?_⟩
  · intro m b h
    simp only [zoneOf]
    rw [if_pos h]
  · intro m b h0 hq h
    simp only [zoneOf, deadband] at *
    rw [if_neg (by nlinarith), if_pos h]
  · intro m b h1 h2
    simp only [zoneOf]
    rw [if_neg (not_lt.mpr h1), if_neg (not_lt.mpr h2)]
  · intro stats band row hrow
    simp only [build_bucket_table, List.mem_map] at hrow
    obtain ⟨s, _, rfl⟩ := hrow
    exact ⟨rfl, rfl, rfl⟩
  · intro s hs row hrow
    simp only [build_bucket_table, List.mem_map, List.mem_singleton] at hrow
    obtain ⟨t, rfl, rfl⟩ := hrow
    refine ⟨?_, rfl⟩
    simp only [zoneOf, hs, deadband]
    norm_num

/-- Witness for `build_bucket_table_zone_surplus` at concrete inputs. -/
theorem build_bucket_table_zone_surplus_witness :
    zoneOf 2 ⟨3, 4, 5⟩ = .BUY
    ∧ zoneOf 10 ⟨1, 2, 3⟩ = .SELL
    ∧ zoneOf 2 ⟨1, 2, 3⟩ = .NEUTRAL
    ∧ (∀ row ∈ build_bucket_table [⟨.b01_05, 2000000, 1, 3, 10, 5000000⟩]
        ⟨3000000, 4000000, 5000000⟩,
        row.arbitrageZone = .BUY ∧ row.surplus4yr = 10 * 4000000 - 5000000) := by
  refine ⟨build_bucket_table_zone_surplus.1 2 ⟨3, 4, 5⟩ (by norm_num [deadband]),
    build_bucket_table_zone_surplus.2.1 10 ⟨1, 2, 3⟩ (by norm_num) (by norm_num)
      (by norm_num [deadband]),
    build_bucket_table_zone_surplus.2.2.1 2 ⟨1, 2, 3⟩ (by norm_num [deadband])
      (by norm_num [deadband]), ?_⟩
  intro row hrow
  exact build_bucket_table_zone_surplus.2.2.2.2.2 ⟨.b01_05, 2000000, 1, 3, 10, 5000000⟩
    rfl row hrow

/-- C7: with the band fixed, the zone is monotone non-decreasing in the
bucket median (ordering BUY < NEUTRAL < SELL), and (for a genuine quantile
band, `0 ≤ q25 ≤ q75`) it is the step function with the two breakpoints
`q25 * (1 - 0.07)` and `q75 * (1 + 0.07)`. -/
theorem zone_monotone_in_median :
    (∀ (b : Band) (m1 m2 : ℚ), m1 ≤ m2 → zoneIdx (zoneOf m1 b) ≤ zoneIdx (zoneOf m2 b))
    ∧ (∀ b : Band, 0 ≤ b.q25 → b.q25 ≤ b.q75 → ∀ m : ℚ,
        (m < b.q25 * (1 - deadband) → zoneOf m b = .BUY)
        ∧ (b.q25 * (1 - deadband) ≤ m → m ≤ b.q75 * (1 + deadband) → zoneOf m b = .NEUTRAL)
        ∧ (b.q75 * (1 + deadband) < m → zoneOf m b = .SELL)) := by
  constructor
  · intro b m1 m2 h
    simp only [zoneOf]
    split_ifs <;> simp_all [zoneIdx] <;> linarith
  · intro b h0 hq m
    refine ⟨fun h => ?_, fun h1 h2 => ?_, fun h => ?_⟩
    · simp only [zoneOf]
      rw [if_pos h]
    · simp only [zoneOf]
      rw [if_neg (not_lt.mpr h1), if_neg (not_lt.mpr h2)]
    · simp only [zoneOf, deadband] at *
      rw [if_neg (by nlinarith), if_pos h]

/-- Witness for `zone_monotone_in_median` at concrete inputs. -/
theorem zone_monotone_in_median_witness :
    zoneIdx (zoneOf 1 ⟨2, 3, 4⟩) ≤ zoneIdx (zoneOf 10 ⟨2, 3, 4⟩)
    ∧ zoneOf 5 ⟨2, 3, 4⟩ = .SELL := by
  exact ⟨zone_monotone_in_median.1 ⟨2, 3, 4⟩ 1 10 (by norm_num),
    (zone_monotone_in_median.2 ⟨2, 3, 4⟩ (by norm_num) (by norm_num) 5).2.2
      (by norm_num [deadband])⟩

/-- C10: `prepare_pick_costs` filters only on positive war: every output row
has `war_first4 > 0`, `cost_per_war_per_season = (cost_first4 / war_first4) / 4`
and `war_per_season = war_first4 / 4`; the rate is non-negative whenever the
summed cost is, and zero-cost picks are retained with rate 0 rather than
excluded. -/
theorem prepare_pick_costs_spec :
    (∀ picks : List PickOutcome, ∀ r ∈ prepare_pick_costs picks,
        0 < r.outcome.warFirst4
        ∧ r.costPerWarPerSeason = r.outcome.costFirst4 / r.outcome.warFirst4 / 4
        ∧ r.warPerSeason = r.outcome.warFirst4 / 4
        ∧ r.bucket = assign_bucket r.outcome.pick
        ∧ (0 ≤ r.outcome.costFirst4 → 0 ≤ r.costPerWarPerSeason)
        ∧ (r.outcome.costFirst4 = 0 → r.costPerWarPerSeason = 0))
    ∧ (∀ picks : List PickOutcome, ∀ p ∈ picks, 0 < p.warFirst4 →
        enrichPick p ∈ prepare_pick_costs picks
        ∧ (enrichPick p).outcome = p
        ∧ (p.costFirst4 = 0 → (enrichPick p).costPerWarPerSeason = 0)) := by
  constructor
  · intro picks r hr
    simp only [prepare_pick_costs, List.mem_map, List.mem_filter] at hr
    obtain ⟨p, ⟨hp, hpos⟩, rfl⟩ := hr
    have hw : 0 < p.warFirst4 := of_decide_eq_true hpos
    refine ⟨hw, rfl, rfl, rfl, fun hc => ?_, fun hc => ?_⟩
    · exact div_nonneg (div_nonneg hc hw.le) (by norm_num)
    · have hc' : p.costFirst4 = 0 := by simpa [enrichPick] using hc
      simp [enrichPick, hc']
  · intro picks p hp hw
    refine ⟨?_, rfl, fun hc => by simp [enrichPick, hc]⟩
    simp only [prepare_pick_costs, List.mem_map]
    exact ⟨p, List.mem_filter.mpr ⟨hp, decide_eq_true hw⟩, rfl⟩

/-- Witness for `prepare_pick_costs_spec` at a concrete zero-cost pick. -/
theorem prepare_pick_costs_spec_witness :
    ∀ r ∈ prepare_pick_costs [⟨2017, 3, "slug", "Some Player", "some player", 5, 0⟩],
      0 < r.outcome.warFirst4 ∧ r.costPerWarPerSeason = 0 := by
  intro r hr
  refine ⟨(prepare_pick_costs_spec.1 _ r hr).1, ?_⟩
  have h2 := prepare_pick_costs_spec.2 [⟨2017, 3, "slug", "Some Player", "some player", 5, 0⟩]
    ⟨2017, 3, "slug", "Some Player", "some player", 5, 0⟩ (by simp) (by norm_num)
  have hr' : r = enrichPick ⟨2017, 3, "slug", "Some Player", "some player", 5, 0⟩ := by
    revert hr
    simp [prepare_pick_costs]
  rw [hr']
  exact h2.2.2 rfl

/-- The accumulation loop over the rookie window equals the sum of the
looked-up values, with missing keys contributing `0` via `getD`. -/
theorem accumLookup_eq_sum (lookup : String × ℤ → Option ℚ) (key : String)
    (seasons : List ℤ) :
    accumLookup lookup key seasons
      = (seasons.map (fun s => (lookup (key, s)).getD 0)).sum := by
  unfold accumLookup
  have h : ∀ (l : List ℤ) (a : ℚ),
      l.foldl (fun acc s => acc + (lookup (key, s)).getD 0) a
        = a + (l.map (fun s => (lookup (key, s)).getD 0)).sum := by
    intro l
    induction l with
    | nil => simp
    | cons x xs ih => intro a; simp [ih, add_assoc]
  rw [h]
  simp

/-- C4: `build_pick_outcomes` produces, for every draft pick with draft year
`Y`, a row whose `war_first4` is the sum over `season_end ∈ [Y+1, Y+N]` of
the war looked up by `(player_slug, season_end)` and whose `cost_first4` is
the sum of the salary looked up by `(canonical_name, season_end)`, absent
keys contributing zero (the lookup is total, never an error). -/
theorem build_pick_outcomes_spec (draft : List DraftRow) (war : List WarRow)
    (salary : List SalaryRow) (n : ℕ) :
    (build_pick_outcomes draft war salary n).length = draft.length
    ∧ (∀ (y : ℤ) (s : ℤ), s ∈ rookieSeasons y n ↔ y + 1 ≤ s ∧ s ≤ y + n)
    ∧ (∀ (lookup : String × ℤ → Option ℚ) (k : String × ℤ),
        lookup k = none → (lookup k).getD 0 = 0)
    ∧ (∀ p ∈ draft,
        ({ draftYear := p.seasonEnd
           pick := p.pick
           playerSlug := p.playerSlug
           playerName := p.playerName
           canonicalName := p.canonicalName
           warFirst4 := ((rookieSeasons p.seasonEnd n).map
             (fun s => (warDict war (p.playerSlug, s)).getD 0)).sum
           costFirst4 := ((rookieSeasons p.seasonEnd n).map
             (fun s => (salaryDict salary (p.canonicalName, s)).getD 0)).sum } : PickOutcome)
          ∈ build_pick_outcomes draft war salary n) := by
  refine ⟨by simp [build_pick_outcomes], ?_, ?_, ?_⟩
  · intro y s
    constructor
    · intro hs
      obtain ⟨i, hi, rfl⟩ := List.mem_map.mp hs
      have hi' : i < n := List.mem_range.mp hi
      have h0 : (0 : ℤ) ≤ (i : ℤ) := Int.natCast_nonneg i
      have h1 : (i : ℤ) < (n : ℤ) := by exact_mod_cast hi'
      constructor <;> linarith
    · rintro ⟨h1, h2⟩
      have hnn : (0 : ℤ) ≤ s - (y + 1) := by linarith
      have hc : ((s - (y + 1)).toNat : ℤ) = s - (y + 1) := Int.toNat_of_nonneg hnn
      refine List.mem_map.mpr ⟨(s - (y + 1)).toNat, List.mem_range.mpr ?_, by rw [hc]; ring⟩
      have hlt : ((s - (y + 1)).toNat : ℤ) < (n : ℤ) := by rw [hc]; linarith
      exact_mod_cast hlt
  · intro lookup k h
    simp [h]
  · intro p hp
    simp only [build_pick_outcomes, List.mem_map]
    exact ⟨p, hp, by simp [accumLookup_eq_sum]⟩

/-- Witness for `build_pick_outcomes_spec` at a concrete one-pick input. -/
theorem build_pick_outcomes_spec_witness :
    (2018 : ℤ) ∈ rookieSeasons 2017 4
    ∧ ({ draftYear := 2017, pick := 1, playerSlug := "s1", playerName := "A B",
         canonicalName := "a b",
         warFirst4 := ((rookieSeasons (2017 : ℤ) 4).map
           (fun s => (warDict [⟨"s1", "A B", "a b", 2018, 3⟩] ("s1", s)).getD 0)).sum
         costFirst4 := ((rookieSeasons (2017 : ℤ) 4).map
           (fun s => (salaryDict [] ("a b", s)).getD 0)).sum } : PickOutcome)
        ∈ build_pick_outcomes [⟨2017, 1, "T", "A B", "s1", "a b"⟩]
            [⟨"s1", "A B", "a b", 2018, 3⟩] [] 4 := by
  refine ⟨?_, ?_⟩
  · exact ((build_pick_outcomes_spec [] [] [] 4).2.1 2017 2018).mpr (by norm_num)
  · exact (build_pick_outcomes_spec [⟨2017, 1, "T", "A B", "s1", "a b"⟩]
      [⟨"s1", "A B", "a b", 2018, 3⟩] [] 4).2.2.2 ⟨2017, 1, "T", "A B", "s1", "a b"⟩
      (by simp)

/-- The fetch loop collects no frame exactly when every season's fetch
raised. -/
theorem okFrames_eq_nil_iff (fetch : ℤ → Except String (List DraftRow))
    (ys : List ℤ) :
    okFrames fetch ys = [] ↔ ∀ y ∈ ys, ∃ e, fetch y = .error e := by
  induction ys with
  | nil => simp [okFrames]
  | cons y ys ih =>
    simp only [okFrames, List.foldr_cons] at *
    cases h : fetch y <;> simp [h, ih]

/-- A frame returned by a successful season fetch is collected by the
loop. -/
theorem mem_okFrames (fetch : ℤ → Except String (List DraftRow)) {ys : List ℤ}
    {y : ℤ} {df : List DraftRow} (hy : y ∈ ys) (h : fetch y = .ok df) :
    df ∈ okFrames fetch ys := by
  induction ys with
  | nil => cases hy
  | cons z zs ih =>
    rcases List.mem_cons.mp hy with rfl | hy'
    · simp [okFrames, h]
    · cases hz : fetch z <;> simp only [okFrames, List.foldr_cons, hz] <;>
        first
          | exact ih hy'
          | exact List.mem_cons_of_mem _ (ih hy')

/-- C9: the draft build completes whenever at least one season's fetch
returns a frame (even an empty one), its output contains every row of every
season that succeeded, it raises exactly when every season in the range
raised, and `fetch_draft_class` returns an empty table (not an error) when
retries are exhausted or the `stats` table is absent. -/
theorem build_draft_data_resilient (fetch : ℤ → Except String (List DraftRow))
    (startY endY : ℤ) :
    ((∃ y ∈ yearRange startY endY, ∃ df, fetch y = .ok df) →
      ∃ out, build_draft_data fetch startY endY = .ok out
        ∧ ∀ y ∈ yearRange startY endY, ∀ df, fetch y = .ok df →
            ∀ r ∈ df,
              ({ r with canonicalName := _canonicalize r.playerName } : DraftRow) ∈ out)
    ∧ ((∃ e, build_draft_data fetch startY endY = .error e) ↔
        ∀ y ∈ yearRange startY endY, ∃ e, fetch y = .error e)
    ∧ fetch_draft_class none = []
    ∧ fetch_draft_class (some none) = [] := by
  refine ⟨?_, ?_, rfl, rfl⟩
  · rintro ⟨y, hy, df, hdf⟩
    have hne : okFrames fetch (yearRange startY endY) ≠ [] := by
      intro hnil
      obtain ⟨e, he⟩ := (okFrames_eq_nil_iff fetch _).mp hnil y hy
      rw [hdf] at he
      cases he
    refine ⟨(okFrames fetch (yearRange startY endY)).flatten.map
      (fun r => { r with canonicalName := _canonicalize r.playerName }), ?_, ?_⟩
    · simp only [build_draft_data]
      rw [if_neg (by simpa [List.isEmpty_iff] using hne)]
    · intro y' hy' df' hdf' r hr
      refine List.mem_map_of_mem _ ?_
      exact List.mem_flatten.mpr ⟨df', mem_okFrames fetch hy' hdf', hr⟩
  · simp only [build_draft_data]
    by_cases hnil : okFrames fetch (yearRange startY endY) = []
    · simp only [hnil, List.isEmpty_nil, if_pos]
      simpa using (okFrames_eq_nil_iff fetch _).mp hnil
    · rw [if_neg (by simpa [List.isEmpty_iff] using hnil)]
      simp only [reduceCtorEq, exists_false, false_iff]
      intro hall
      exact hnil ((okFrames_eq_nil_iff fetch _).mpr hall)

/-- Witness for `build_draft_data_resilient`: one succeeding season among
failing ones. -/
theorem build_draft_data_resilient_witness :
    ∃ out, build_draft_data
        (fun y => if y = 2017 then .ok [⟨2017, 1, "T", "A B", "s1", ""⟩]
                  else .error "HTTP 429") 2016 2018 = .ok out
      ∧ ({ seasonEnd := 2017, pick := 1, team := "T", playerName := "A B",
           playerSlug := "s1", canonicalName := _canonicalize "A B" } : DraftRow) ∈ out := by
  obtain ⟨out, hout, hmem⟩ :=
    (build_draft_data_resilient
      (fun y => if y = 2017 then .ok [⟨2017, 1, "T", "A B", "s1", ""⟩]
                else .error "HTTP 429") 2016 2018).1
      ⟨2017, by decide, [⟨2017, 1, "T", "A B", "s1", ""⟩], by simp⟩
  refine ⟨out, hout, ?_⟩
  have hres := hmem 2017 (by decide) [⟨2017, 1, "T", "A B", "s1", ""⟩] (by simp)
    ⟨2017, 1, "T", "A B", "s1", ""⟩ (by simp)
  simpa using hres

/-- C8: the canonicalizer is total (non-string and empty inputs yield the
empty string) and collapses the documented variants: `Nené` with `Nene`,
`D'Angelo Russell` with `dangelo russell`, and `Gary Payton II` with
`Gary Payton`. -/
theorem canonicalize_total_and_variants :
    canonicalizeValue none = ""
    ∧ _canonicalize "" = ""
    ∧ _canonicalize "Nené" = _canonicalize "Nene"
    ∧ _canonicalize ("D" ++ apos ++ "Angelo Russell") = _canonicalize "dangelo russell"
    ∧ _canonicalize "Gary Payton II" = _canonicalize "Gary Payton"
    ∧ _canonicalize "Nené" = "nene"
    ∧ _canonicalize ("D" ++ apos ++ "Angelo Russell") = "dangelo russell"
    ∧ _canonicalize "Gary Payton II" = "gary payton" := by
  decide

/-- A cell that went through `replace([inf, -inf], nan)` is NaN exactly when
the original cell was not finite. -/
theorem replaceInfWithNan_isNan (v : FVal) :
    (replaceInfWithNan v).isNan = !v.isFinite := by
  cases v <;> rfl

/-- `replace([inf, -inf], nan)` leaves finite cells unchanged. -/
theorem replaceInfWithNan_finite (v : FVal) (h : v.isFinite = true) :
    replaceInfWithNan v = v := by
  cases v <;> simp_all [FVal.isFinite, replaceInfWithNan]

/-- The `dollars_per_war` column surviving `prepare_salary_pricing` is
exactly the finite ratios of the positively-filtered rows. -/
theorem prepare_salary_pricing_dpw (rows : List MarketRow) :
    (prepare_salary_pricing rows).map (fun r => r.dollarsPerWar)
      = ((rows.filter (fun r => fgt r.salary (.fin 0) && fgt r.war (.fin 0))).map
          (fun r => fdiv r.salary r.war)).filter FVal.isFinite := by
  simp only [prepare_salary_pricing]
  generalize rows.filter (fun r => fgt r.salary (.fin 0) && fgt r.war (.fin 0)) = l
  induction l with
  | nil => rfl
  | cons r rs ih =>
    simp only [List.map_cons, List.filter_cons]
    have hc : (!(replaceInfWithNan (fdiv r.salary r.war)).isNan)
        = FVal.isFinite (fdiv r.salary r.war) := by
      rw [replaceInfWithNan_isNan, Bool.not_not]
    cases hfin : FVal.isFinite (fdiv r.salary r.war)
    · simp only [List.map_map] at ih
      simp [hc, hfin, ih]
    · simp only [List.map_map] at ih
      have hnn : (fdiv r.salary r.war).isNan = false := by
        cases h : fdiv r.salary r.war <;> simp_all [FVal.isFinite, FVal.isNan]
      simp [hc, hfin, hnn, ih, replaceInfWithNan_finite _ hfin]

/-- C5: the dollars-per-war ratio is formed only over rows passing the
`salary > 0 and war > 0` filter; every ratio surviving to the quantile stage
is finite (infinite/undefined ratios are dropped, not clamped and not kept
as NaN); rows with genuinely positive finite salary and war survive with the
exact ratio `salary / war`; division of a positive salary by zero war would
produce an infinity (hence be dropped); and the band is the 25th/50th/75th
percentiles of the surviving ratios. -/
theorem prepare_salary_pricing_spec (rows : List MarketRow) :
    (∀ rr ∈ prepare_salary_pricing rows, rr.dollarsPerWar.isFinite = true)
    ∧ ((prepare_salary_pricing rows).map (fun r => r.dollarsPerWar)
        = ((rows.filter (fun r => fgt r.salary (.fin 0) && fgt r.war (.fin 0))).map
            (fun r => fdiv r.salary r.war)).filter FVal.isFinite)
    ∧ (∀ r ∈ rows, ∀ s w : ℚ, r.salary = .fin s → r.war = .fin w → 0 < s → 0 < w →
        ({ canonicalName := r.canonicalName, seasonEnd := r.seasonEnd,
           salary := .fin s, war := .fin w, dollarsPerWar := .fin (s / w) } : PricedRow)
          ∈ prepare_salary_pricing rows)
    ∧ (∀ s : ℚ, 0 < s →
        fdiv (.fin s) (.fin 0) = .posInf ∧ (fdiv (.fin s) (.fin 0)).isFinite = false)
    ∧ compute_band (prepare_salary_pricing rows)
        = { q25 := quantileQ (((((rows.filter
                (fun r => fgt r.salary (.fin 0) && fgt r.war (.fin 0))).map
                (fun r => fdiv r.salary r.war)).filter FVal.isFinite).map FVal.toQ)) (1 / 4)
            q50 := quantileQ (((((rows.filter
                (fun r => fgt r.salary (.fin 0) && fgt r.war (.fin 0))).map
                (fun r => fdiv r.salary r.war)).filter FVal.isFinite).map FVal.toQ)) (1 / 2)
            q75 := quantileQ (((((rows.filter
                (fun r => fgt r.salary (.fin 0) && fgt r.war (.fin 0))).map
                (fun r => fdiv r.salary r.war)).filter FVal.isFinite).map FVal.toQ)) (3 / 4) } := by
  refine ⟨?_, prepare_salary_pricing_dpw rows, ?_, ?_, ?_⟩
  · intro rr hrr
    have hmem : rr.dollarsPerWar ∈ (prepare_salary_pricing rows).map
        (fun r => r.dollarsPerWar) := List.mem_map_of_mem _ hrr
    rw [prepare_salary_pricing_dpw] at hmem
    exact (List.mem_filter.mp hmem).2
  · intro r hr s w hs hw hspos hwpos
    have hP : (fgt r.salary (.fin 0) && fgt r.war (.fin 0)) = true := by
      rw [hs, hw]
      simp [fgt, hspos, hwpos]
    have hdiv : fdiv r.salary r.war = .fin (s / w) := by
      rw [hs, hw]
      simp [fdiv, hwpos.ne']
    simp only [prepare_salary_pricing, List.mem_filter, List.mem_map]
    refine ⟨⟨⟨r.canonicalName, r.seasonEnd, r.salary, r.war, fdiv r.salary r.war⟩,
      ⟨r, ⟨hr, hP⟩, rfl⟩, ?_⟩, ?_⟩
    · rw [hdiv, hs, hw]
      rfl
    · rfl
  · intro s hspos
    constructor
    · simp [fdiv, hspos, hspos.ne']
    · simp [fdiv, hspos, hspos.ne', FVal.isFinite]
  · simp only [compute_band]
    rw [show (prepare_salary_pricing rows).map (fun r => r.dollarsPerWar.toQ)
        = ((prepare_salary_pricing rows).map (fun r => r.dollarsPerWar)).map FVal.toQ by
      rw [List.map_map]; rfl]
    rw [prepare_salary_pricing_dpw]

/-- Witness for `prepare_salary_pricing_spec` at a concrete one-row table. -/
theorem prepare_salary_pricing_spec_witness :
    ({ canonicalName := "a", seasonEnd := 2020, salary := .fin 4, war := .fin 2,
       dollarsPerWar := .fin (4 / 2) } : PricedRow)
      ∈ prepare_salary_pricing [⟨"a", 2020, .fin 4, .fin 2⟩]
    ∧ fdiv (.fin 1) (.fin 0) = .posInf := by
  refine ⟨?_, ?_⟩
  · exact (prepare_salary_pricing_spec [⟨"a", 2020, .fin 4, .fin 2⟩]).2.2.1
      ⟨"a", 2020, .fin 4, .fin 2⟩ (by simp) 4 2 rfl rfl (by norm_num) (by norm_num)
  · exact ((prepare_salary_pricing_spec []).2.2.2.1 1 (by norm_num)).1

/-- The key comparator is transitive. -/
theorem keyLEb_trans (a b c : String × ℤ) (h1 : keyLEb a b = true) (h2 : keyLEb b c = true) :
    keyLEb a c = true := by
  simp only [keyLEb, KeyLe, decide_eq_true_eq] at *
  rcases h1 with h1 | ⟨h1, h1'⟩ <;> rcases h2 with h2 | ⟨h2, h2'⟩
  · exact Or.inl (lt_trans h1 h2)
  · exact Or.inl (h2 ▸ h1)
  · exact Or.inl (h1 ▸ h2)
  · exact Or.inr ⟨h1.trans h2, le_trans h1' h2'⟩

/-- The key comparator is total. -/
theorem keyLEb_total (a b : String × ℤ) : (keyLEb a b || keyLEb b a) = true := by
  simp only [keyLEb, KeyLe, Bool.or_eq_true, decide_eq_true_eq]
  rcases lt_trichotomy a.1 b.1 with h | h | h
  · exact Or.inl (Or.inl h)
  · rcases le_total a.2 b.2 with h' | h'
    · exact Or.inl (Or.inr ⟨h, h'⟩)
    · exact Or.inr (Or.inr ⟨h.symm, h'⟩)
  · exact Or.inr (Or.inl h)

/-- The key comparator is antisymmetric. -/
theorem keyLEb_antisymm (a b : String × ℤ) (h1 : keyLEb a b = true)
    (h2 : keyLEb b a = true) : a = b := by
  simp only [keyLEb, KeyLe, decide_eq_true_eq] at h1 h2
  rcases h1 with h1 | ⟨h1, h1'⟩ <;> rcases h2 with h2 | ⟨h2, h2'⟩
  · exact absurd h2 (lt_asymm h1)
  · exact absurd h1 (h2 ▸ lt_irrefl _)
  · exact absurd h2 (h1 ▸ lt_irrefl _)
  · exact Prod.ext h1 (le_antisymm h1' h2')

/-- Folding `max` from `⊥` is invariant under permutation. -/
theorem foldr_max_perm {l l' : List (WithBot ℚ)} (h : l.Perm l') :
    l.foldr max ⊥ = l'.foldr max ⊥ := by
  induction h with
  | nil => rfl
  | cons x _ ih => simp only [List.foldr_cons, ih]
  | swap x y l => simp only [List.foldr_cons, max_left_comm]
  | trans _ _ ih1 ih2 => rw [ih1, ih2]

/-- Every element is bounded by the fold of `max`. -/
theorem le_foldr_max {x : WithBot ℚ} {l : List (WithBot ℚ)} (hx : x ∈ l) :
    x ≤ l.foldr max ⊥ := by
  induction l with
  | nil => cases hx
  | cons y ys ih =>
    rcases List.mem_cons.mp hx with rfl | h
    · exact le_max_left _ _
    · exact le_trans (ih h) (le_max_right _ _)

/-- The fold of `max` over an append is the max of the folds. -/
theorem foldr_max_append (a b : List (WithBot ℚ)) :
    (a ++ b).foldr max ⊥ = max (a.foldr max ⊥) (b.foldr max ⊥) := by
  induction a with
  | nil => simp
  | cons x xs ih => simp [ih, max_assoc]

/-- The fold of `max` over a list contained in another is bounded by the
latter's fold. -/
theorem foldr_max_le {a b : List (WithBot ℚ)} (h : ∀ x ∈ b, x ∈ a) :
    b.foldr max ⊥ ≤ a.foldr max ⊥ := by
  induction b with
  | nil => simp
  | cons x xs ih =>
    simp only [List.foldr_cons]
    exact max_le (le_foldr_max (h x (List.mem_cons_self x xs)))
      (ih fun y hy => h y (List.mem_cons_of_mem _ hy))

/-- The group maximum is permutation-invariant. -/
theorem maxSalary_perm {l l' : List SalaryRow} (h : l.Perm l') (k : String × ℤ) :
    maxSalary l k = maxSalary l' k :=
  foldr_max_perm ((h.filter _).map _)

/-- Appending rows already present does not change any group maximum. -/
theorem maxSalary_append_subset {l d : List SalaryRow} (hd : ∀ r ∈ d, r ∈ l)
    (k : String × ℤ) : maxSalary (l ++ d) k = maxSalary l k := by
  unfold maxSalary
  rw [List.filter_append, List.map_append, foldr_max_append]
  refine max_eq_left (foldr_max_le ?_)
  intro x hx
  obtain ⟨r, hr, rfl⟩ := List.mem_map.mp hx
  obtain ⟨hrd, hrk⟩ := List.mem_filter.mp hr
  exact List.mem_map_of_mem _ (List.mem_filter.mpr ⟨hd r hrd, hrk⟩)

/-- The sorted key list is sorted by the comparator. -/
theorem sortedKeys_sorted (rows : List SalaryRow) :
    List.Sorted (fun a b => keyLEb a b = true) (sortedKeys rows) :=
  List.sorted_mergeSort keyLEb_trans keyLEb_total _

/-- The sorted key list is a permutation of the deduplicated keys. -/
theorem sortedKeys_perm (rows : List SalaryRow) :
    (sortedKeys rows).Perm (rows.map salKey).dedup :=
  List.mergeSort_perm _ _

/-- The sorted key list has no duplicates. -/
theorem sortedKeys_nodup (rows : List SalaryRow) : (sortedKeys rows).Nodup :=
  (sortedKeys_perm rows).symm.nodup (List.nodup_dedup _)

/-- Permuting the input rows leaves the sorted key list unchanged. -/
theorem sortedKeys_eq_of_perm {l l' : List SalaryRow} (h : l.Perm l') :
    sortedKeys l = sortedKeys l' := by
  haveI : IsAntisymm (String × ℤ) (fun a b => keyLEb a b = true) := ⟨keyLEb_antisymm⟩
  refine List.eq_of_perm_of_sorted ?_ (sortedKeys_sorted l) (sortedKeys_sorted l')
  exact (sortedKeys_perm l).trans (((h.map salKey).dedup).trans (sortedKeys_perm l').symm)

/-- Appending rows already present leaves the sorted key list unchanged. -/
theorem sortedKeys_append_subset {l d : List SalaryRow} (hd : ∀ r ∈ d, r ∈ l) :
    sortedKeys (l ++ d) = sortedKeys l := by
  haveI : IsAntisymm (String × ℤ) (fun a b => keyLEb a b = true) := ⟨keyLEb_antisymm⟩
  refine List.eq_of_perm_of_sorted ?_ (sortedKeys_sorted _) (sortedKeys_sorted _)
  refine (sortedKeys_perm _).trans (List.Perm.trans ?_ (sortedKeys_perm l).symm)
  refine (List.perm_ext_iff_of_nodup (List.nodup_dedup _) (List.nodup_dedup _)).mpr ?_
  intro a
  simp only [List.mem_dedup, List.map_append, List.mem_append, List.mem_map]
  constructor
  · rintro (⟨r, hr, rfl⟩ | ⟨r, hr, rfl⟩)
    · exact ⟨r, hr, rfl⟩
    · exact ⟨r, hd r hr, rfl⟩
  · rintro ⟨r, hr, rfl⟩
    exact Or.inl ⟨r, hr, rfl⟩

/-- Filtering a keyed row list for a key absent from the key list yields
nothing. -/
theorem filter_key_map_nil {k : String × ℤ} {ks : List (String × ℤ)}
    (f : String × ℤ → SalaryRow) (hf : ∀ k', salKey (f k') = k') (hk : k ∉ ks) :
    (ks.map f).filter (fun r => decide (salKey r = k)) = [] := by
  induction ks with
  | nil => rfl
  | cons a as ih =>
    have ha : a ≠ k := fun h => hk (h ▸ List.mem_cons_self a as)
    simp only [List.map_cons, List.filter_cons, hf, decide_eq_true_eq]
    rw [if_neg (by simpa using ha)]
    exact ih (fun h => hk (List.mem_cons_of_mem _ h))

/-- Filtering a keyed row list of distinct keys for a present key yields
exactly that key's row. -/
theorem filter_key_map {k : String × ℤ} {ks : List (String × ℤ)}
    (f : String × ℤ → SalaryRow) (hf : ∀ k', salKey (f k') = k')
    (hnd : ks.Nodup) (hk : k ∈ ks) :
    (ks.map f).filter (fun r => decide (salKey r = k)) = [f k] := by
  induction ks with
  | nil => cases hk
  | cons a as ih =>
    rcases List.mem_cons.mp hk with rfl | hk'
    · simp only [List.map_cons, List.filter_cons, hf, decide_eq_true_eq]
      rw [if_pos trivial, filter_key_map_nil f hf (List.nodup_cons.mp hnd).1]
    · have ha : a ≠ k := fun h => (List.nodup_cons.mp hnd).1 (h ▸ hk')
      simp only [List.map_cons, List.filter_cons, hf, decide_eq_true_eq]
      rw [if_neg (by simpa using ha)]
      exact ih (List.nodup_cons.mp hnd).2 hk'

/-- The keys of a reconciled table are its sorted keys. -/
theorem reconcile_map_salKey (l : List SalaryRow) :
    (reconcile l).map salKey = sortedKeys l := by
  unfold reconcile
  rw [List.map_map]
  exact List.map_congr_left (fun k _ => rfl) |>.trans (List.map_id _)

/-- C6: salary reconciliation is order-insensitive (permuting the input rows
gives the same table), duplicate-insensitive (appending copies of rows
already present gives the same table), and idempotent (reconciling a
reconciled table returns it unchanged). -/
theorem reconcile_comm_dup_idem :
    (∀ l l' : List SalaryRow, l.Perm l' → reconcile l = reconcile l')
    ∧ (∀ l d : List SalaryRow, (∀ r ∈ d, r ∈ l) → reconcile (l ++ d) = reconcile l)
    ∧ (∀ l : List SalaryRow, reconcile (reconcile l) = reconcile l) := by
  refine ⟨?_, ?_, ?_⟩
  · intro l l' h
    unfold reconcile
    rw [sortedKeys_eq_of_perm h]
    exact List.map_congr_left fun k _ => by unfold reconRow; rw [maxSalary_perm h]
  · intro l d hd
    unfold reconcile
    rw [sortedKeys_append_subset hd]
    exact List.map_congr_left fun k _ => by unfold reconRow; rw [maxSalary_append_subset hd]
  · intro l
    haveI : IsAntisymm (String × ℤ) (fun a b => keyLEb a b = true) := ⟨keyLEb_antisymm⟩
    have hkeys : sortedKeys (reconcile l) = sortedKeys l := by
      unfold sortedKeys
      rw [show (reconcile l).map salKey = sortedKeys l from reconcile_map_salKey l,
        List.dedup_eq_self.mpr (sortedKeys_nodup l)]
      refine List.eq_of_perm_of_sorted (List.mergeSort_perm _ _) ?_ (sortedKeys_sorted l)
      exact List.sorted_mergeSort keyLEb_trans keyLEb_total _
    have hmax : ∀ k ∈ sortedKeys l, reconRow (reconcile l) k = reconRow l k := by
      intro k hk
      have hms : maxSalary (reconcile l) k = ((maxSalary l k).unbot' 0 : ℚ) := by
        unfold maxSalary
        rw [show reconcile l = (sortedKeys l).map (reconRow l) from rfl,
          filter_key_map (reconRow l) (fun k' => rfl) (sortedKeys_nodup l) hk]
        simp only [List.map_cons, List.map_nil, List.foldr_cons, List.foldr_nil,
          max_bot_right, reconRow]
        rfl
      unfold reconRow
      rw [hms, WithBot.unbot'_coe]
    calc reconcile (reconcile l)
        = (sortedKeys (reconcile l)).map (reconRow (reconcile l)) := rfl
      _ = (sortedKeys l).map (reconRow (reconcile l)) := by rw [hkeys]
      _ = (sortedKeys l).map (reconRow l) := List.map_congr_left hmax
      _ = reconcile l := rfl

/-- Witness for `reconcile_comm_dup_idem` at concrete two-row tables. -/
theorem reconcile_comm_dup_idem_witness :
    reconcile [⟨"b", 2020, 5⟩, ⟨"a", 2020, 7⟩] = reconcile [⟨"a", 2020, 7⟩, ⟨"b", 2020, 5⟩]
    ∧ reconcile ([⟨"a", 2020, 7⟩, ⟨"b", 2020, 5⟩] ++ [⟨"a", 2020, 7⟩])
        = reconcile [⟨"a", 2020, 7⟩, ⟨"b", 2020, 5⟩] := by
  refine ⟨reconcile_comm_dup_idem.1 _ _ ?_, reconcile_comm_dup_idem.2.1 _ _ ?_⟩
  · exact List.Perm.swap _ _ _
  · intro r hr
    simp only [List.mem_singleton] at hr
    simp [hr]

/-- Characters are determined by their code points. -/
theorem char_toNat_inj {a b : Char} (h : a.toNat = b.toNat) : a = b :=
  Char.ext (UInt32.ext h)

/-- `Char.ofNat` of a valid code point has that code point. -/
theorem toNat_ofNat_valid {m : ℕ} (hv : Nat.isValidChar m) : (Char.ofNat m).toNat = m := by
  simp [Char.ofNat, hv, Char.ofNatAux, Char.toNat, UInt32.toNat, BitVec.toNat_ofNatLt]

/-- The code-point ranges of canonical-form characters. -/
theorem goodChar_toNat {c : Char} (h : goodChar c = true) :
    (97 ≤ c.toNat ∧ c.toNat ≤ 122) ∨ (48 ≤ c.toNat ∧ c.toNat ≤ 57) ∨ c.toNat = 32 := by
  simp only [goodChar, Bool.or_eq_true, Char.isLower, Char.isDigit, Bool.and_eq_true,
    decide_eq_true_eq, beq_iff_eq] at h
  rcases h with (⟨h1, h2⟩ | ⟨h1, h2⟩) | h
  · exact Or.inl ⟨h1, h2⟩
  · exact Or.inr (Or.inl ⟨h1, h2⟩)
  · subst h
    exact Or.inr (Or.inr rfl)

/-- Conversely, those code-point ranges make a canonical-form character. -/
theorem goodChar_of_toNat {c : Char}
    (h : (97 ≤ c.toNat ∧ c.toNat ≤ 122) ∨ (48 ≤ c.toNat ∧ c.toNat ≤ 57) ∨ c.toNat = 32) :
    goodChar c = true := by
  simp only [goodChar, Bool.or_eq_true, Char.isLower, Char.isDigit, Bool.and_eq_true,
    decide_eq_true_eq, beq_iff_eq]
  rcases h with ⟨h1, h2⟩ | ⟨h1, h2⟩ | h
  · exact Or.inl (Or.inl ⟨h1, h2⟩)
  · exact Or.inl (Or.inr ⟨h1, h2⟩)
  · exact Or.inr (char_toNat_inj (show c.toNat = Char.toNat ' ' from h))

/-- The code point of `Char.toLower`. -/
theorem toLower_toNat (c : Char) :
    c.toLower.toNat = if c.toNat ≥ 65 ∧ c.toNat ≤ 90 then c.toNat + 32 else c.toNat := by
  simp only [Char.toLower]
  split_ifs with h
  · exact toNat_ofNat_valid (Or.inl (by omega))
  · rfl

/-- Lowercasing an alphanumeric-or-space character yields a canonical-form
character. -/
theorem goodChar_toLower {c : Char} (h : (c.isAlphanum || c == ' ') = true) :
    goodChar c.toLower = true := by
  have hr : (65 ≤ c.toNat ∧ c.toNat ≤ 90) ∨ (97 ≤ c.toNat ∧ c.toNat ≤ 122)
      ∨ (48 ≤ c.toNat ∧ c.toNat ≤ 57) ∨ c.toNat = 32 := by
    simp only [Bool.or_eq_true, Char.isAlphanum, Char.isAlpha, Char.isUpper, Char.isLower,
      Char.isDigit, Bool.and_eq_true, decide_eq_true_eq, beq_iff_eq] at h
    rcases h with ((⟨h1, h2⟩ | ⟨h1, h2⟩) | ⟨h1, h2⟩) | h
    · exact Or.inl ⟨h1, h2⟩
    · exact Or.inr (Or.inl ⟨h1, h2⟩)
    · exact Or.inr (Or.inr (Or.inl ⟨h1, h2⟩))
    · subst h
      exact Or.inr (Or.inr (Or.inr rfl))
  apply goodChar_of_toNat
  rw [toLower_toNat]
  split_ifs with hif <;> omega

/-- Lowercasing fixes canonical-form characters. -/
theorem toLower_fix_of_goodChar {c : Char} (h : goodChar c = true) : c.toLower = c := by
  have hr := goodChar_toNat h
  apply char_toNat_inj
  rw [toLower_toNat, if_neg (by omega)]

/-- Canonical-form characters pass the `[a-zA-Z0-9 ]` scrub. -/
theorem alnum_or_space_of_goodChar {c : Char} (h : goodChar c = true) :
    (c.isAlphanum || c == ' ') = true := by
  simp only [goodChar, Bool.or_eq_true] at h
  simp only [Bool.or_eq_true, Char.isAlphanum, Char.isAlpha]
  rcases h with (h | h) | h
  · exact Or.inl (Or.inl (Or.inr h))
  · exact Or.inl (Or.inr h)
  · exact Or.inr h

/-- A canonical-form character differs from any character with a code point
outside its ranges. -/
theorem goodChar_ne {c : Char} (h : goodChar c = true) {d : Char}
    (hd : ¬((97 ≤ d.toNat ∧ d.toNat ≤ 122) ∨ (48 ≤ d.toNat ∧ d.toNat ≤ 57) ∨ d.toNat = 32)) :
    c ≠ d := by
  intro he
  exact hd (he ▸ goodChar_toNat h)

/-- The NFKD table fixes canonical-form characters. -/
theorem nfkdChar_fix_of_goodChar {c : Char} (h : goodChar c = true) : nfkdChar c = [c] := by
  have h1 : c ≠ Char.ofNat 0xE9 := goodChar_ne h (by decide)
  have h2 : c ≠ Char.ofNat 0xC9 := goodChar_ne h (by decide)
  unfold nfkdChar
  rw [if_neg h1, if_neg h2]

/-- Canonical-form characters are not combining marks. -/
theorem isCombining_false_of_goodChar {c : Char} (h : goodChar c = true) :
    (!isCombining c) = true := by
  have hr := goodChar_toNat h
  simp only [isCombining, Bool.not_eq_true']
  rw [beq_eq_false_iff_ne]
  intro he
  have h2 : c.toNat = 769 := by
    show c.val.toNat = 769
    rw [he]
    decide
  omega

/-- Canonical-form characters are not the scrubbed punctuation. -/
theorem punct_false_of_goodChar {c : Char} (h : goodChar c = true) :
    (!(c == '.' || c == ',' || c == Char.ofNat 39)) = true := by
  have h1 : c ≠ '.' := goodChar_ne h (by decide)
  have h2 : c ≠ ',' := goodChar_ne h (by decide)
  have h3 : c ≠ Char.ofNat 39 := goodChar_ne h (by decide)
  simp [h1, h2, h3]

/-- Canonical-form characters are not hyphens. -/
theorem hyphen_fix_of_goodChar {c : Char} (h : goodChar c = true) :
    (if c == '-' then ' ' else c) = c := by
  have h1 : c ≠ '-' := goodChar_ne h (by decide)
  simp [h1]

/-- A character whose lowercase form is the space is the space. -/
theorem eq_space_of_toLower {a : Char} (h : a.toLower = ' ') : a = ' ' := by
  have h32 : a.toLower.toNat = 32 := by rw [h]; rfl
  rw [toLower_toNat] at h32
  split_ifs at h32 with hif
  · omega
  · exact char_toNat_inj h32

/-- The collapse stage never emits a leading space when the previous
character was one. -/
theorem collapseSpaces_true_head (l : List Char) :
    ∀ a, (collapseSpaces l true).head? = some a → a ≠ ' ' := by
  induction l with
  | nil => intro a h; cases h
  | cons c cs ih =>
    intro a h
    by_cases hc : (c == ' ') = true
    · simp only [collapseSpaces, hc, if_true] at h
      exact ih a h
    · simp only [collapseSpaces, hc, if_false, Bool.false_eq_true, List.head?_cons,
        Option.some_inj] at h
      subst h
      simpa [beq_iff_eq] using hc

/-- The collapse stage leaves no two adjacent spaces. -/
theorem collapseSpaces_chain' (l : List Char) (b : Bool) :
    List.Chain' spacedOK (collapseSpaces l b) := by
  induction l generalizing b with
  | nil => simp [collapseSpaces]
  | cons c cs ih =>
    by_cases hc : (c == ' ') = true
    · cases b
      · have hred : collapseSpaces (c :: cs) false = ' ' :: collapseSpaces cs true := by
          simp [collapseSpaces, hc]
        rw [hred, List.chain'_cons']
        refine ⟨?_, ih true⟩
        intro y hy
        exact fun ⟨_, h2⟩ => collapseSpaces_true_head cs y (Option.mem_def.mp hy) h2
      · have hred : collapseSpaces (c :: cs) true = collapseSpaces cs true := by
          simp [collapseSpaces, hc]
        rw [hred]
        exact ih true
    · have hred : collapseSpaces (c :: cs) b = c :: collapseSpaces cs false := by
        simp [collapseSpaces, hc]
      rw [hred, List.chain'_cons']
      refine ⟨?_, ih false⟩
      intro y hy
      have hcne : c ≠ ' ' := by simpa [beq_iff_eq] using hc
      exact fun ⟨h1, _⟩ => hcne h1

/-- A list with no two adjacent spaces (and, if the flag is set, no leading
space) is fixed by the collapse stage. -/
theorem collapseSpaces_fix {l : List Char} (h : List.Chain' spacedOK l) (b : Bool)
    (hb : b = true → ∀ a, l.head? = some a → a ≠ ' ') :
    collapseSpaces l b = l := by
  induction l generalizing b with
  | nil => rfl
  | cons c cs ih =>
    by_cases hc : (c == ' ') = true
    · have hcs : c = ' ' := by simpa [beq_iff_eq] using hc
      cases b
      · have hred : collapseSpaces (c :: cs) false = ' ' :: collapseSpaces cs true := by
          simp [collapseSpaces, hc]
        rw [hred, hcs]
        congr 1
        refine ih h.tail true (fun _ a ha => ?_)
        have h2 := (List.chain'_cons'.mp (hcs ▸ h)).1 a (Option.mem_def.mpr ha)
        exact fun hsp => h2 ⟨rfl, hsp⟩
      · exact absurd hcs (hb rfl c rfl)
    · have hred : collapseSpaces (c :: cs) b = c :: collapseSpaces cs false := by
        simp [collapseSpaces, hc]
      rw [hred]
      congr 1
      exact ih h.tail false (fun hfalse => by cases hfalse)

/-- A list whose head and last are not spaces is fixed by the strip stage. -/
theorem stripSpace_fix {l : List Char}
    (hh : ∀ a, l.head? = some a → a ≠ ' ') (hl : ∀ a, l.getLast? = some a → a ≠ ' ') :
    stripSpace l = l := by
  unfold stripSpace
  have h1 : l.dropWhile (fun c => c == ' ') = l := by
    cases l with
    | nil => rfl
    | cons c cs =>
      rw [List.dropWhile_cons, if_neg]
      simp only [beq_iff_eq]
      exact hh c rfl
  rw [h1]
  have h2 : l.reverse.dropWhile (fun c => c == ' ') = l.reverse := by
    cases hrev : l.reverse with
    | nil => rfl
    | cons c cs =>
      rw [List.dropWhile_cons, if_neg]
      simp only [beq_iff_eq]
      refine hl c ?_
      rw [← List.head?_reverse, hrev]
      rfl
  rw [h2, List.reverse_reverse]

/-- Dropping a non-empty prefix by a predicate preserves the last element. -/
theorem getLast?_dropWhile (p : Char → Bool) (z : List Char)
    (h : List.dropWhile p z ≠ []) :
    (List.dropWhile p z).getLast? = z.getLast? := by
  obtain ⟨u, hu⟩ := List.dropWhile_suffix p (l := z)
  conv_rhs => rw [← hu]
  rw [List.getLast?_append]
  cases hW : (List.dropWhile p z).getLast? with
  | none => exact absurd (List.getLast?_eq_none_iff.mp hW) h
  | some a => rfl

/-- The head of a stripped list is not a space. -/
theorem stripSpace_head (l : List Char) :
    ∀ a, (stripSpace l).head? = some a → a ≠ ' ' := by
  intro a ha
  unfold stripSpace at ha
  rw [List.head?_reverse] at ha
  set X := l.dropWhile (fun c => c == ' ') with hX
  have hne : X.reverse.dropWhile (fun c => c == ' ') ≠ [] := by
    intro hnil
    rw [hnil] at ha
    cases ha
  rw [getLast?_dropWhile _ _ hne, List.getLast?_reverse] at ha
  have hdw := List.head?_dropWhile_not (fun c => c == ' ') l
  rw [← hX, ha] at hdw
  simpa [beq_iff_eq] using hdw

/-- The last element of a stripped list is not a space. -/
theorem stripSpace_getLast (l : List Char) :
    ∀ a, (stripSpace l).getLast? = some a → a ≠ ' ' := by
  intro a ha
  unfold stripSpace at ha
  rw [List.getLast?_reverse] at ha
  have hdw := List.head?_dropWhile_not (fun c => c == ' ')
    (l.dropWhile (fun c => c == ' ')).reverse
  rw [ha] at hdw
  simpa [beq_iff_eq] using hdw

/-- Dropping a prefix preserves the no-two-spaces invariant. -/
theorem chain'_dropWhile {p : Char → Bool} {l : List Char}
    (h : List.Chain' spacedOK l) : List.Chain' spacedOK (l.dropWhile p) := by
  induction l with
  | nil => exact h
  | cons c cs ih =>
    rw [List.dropWhile_cons]
    split_ifs with hc
    · exact ih h.tail
    · exact h

/-- Reversal preserves the no-two-spaces invariant. -/
theorem chain'_spaced_reverse {l : List Char} (h : List.Chain' spacedOK l) :
    List.Chain' spacedOK l.reverse := by
  rw [List.chain'_reverse]
  exact h.imp fun a b hab => fun ⟨hb, ha⟩ => hab ⟨ha, hb⟩

/-- Stripping preserves the no-two-spaces invariant. -/
theorem stripSpace_chain' {l : List Char} (h : List.Chain' spacedOK l) :
    List.Chain' spacedOK (stripSpace l) := by
  unfold stripSpace
  exact chain'_spaced_reverse (chain'_dropWhile (chain'_spaced_reverse (chain'_dropWhile h)))

/-- Lowercasing preserves the no-two-spaces invariant. -/
theorem chain'_spaced_map_toLower {l : List Char} (h : List.Chain' spacedOK l) :
    List.Chain' spacedOK (l.map Char.toLower) := by
  rw [List.chain'_map]
  exact h.imp fun a b hab => fun ⟨ha, hb⟩ =>
    hab ⟨eq_space_of_toLower ha, eq_space_of_toLower hb⟩

/-- Collapse output characters come from the input. -/
theorem mem_collapseSpaces {c : Char} {l : List Char} {b : Bool}
    (h : c ∈ collapseSpaces l b) : c ∈ l := by
  induction l generalizing b with
  | nil => simp [collapseSpaces] at h
  | cons d ds ih =>
    by_cases hd : (d == ' ') = true
    · simp only [collapseSpaces, hd, if_true] at h
      cases b
      · rcases List.mem_cons.mp h with rfl | h'
        · have : d = ' ' := by simpa [beq_iff_eq] using hd
          rw [this]
          exact List.mem_cons_self _ _
        · exact List.mem_cons_of_mem _ (ih h')
      · exact List.mem_cons_of_mem _ (ih h)
    · simp only [collapseSpaces, hd, if_false, Bool.false_eq_true] at h
      rcases List.mem_cons.mp h with rfl | h'
      · exact List.mem_cons_self _ _
      · exact List.mem_cons_of_mem _ (ih h')

/-- Strip output characters come from the input. -/
theorem mem_stripSpace {c : Char} {l : List Char} (h : c ∈ stripSpace l) : c ∈ l := by
  unfold stripSpace at h
  rw [List.mem_reverse] at h
  have h2 : c ∈ (l.dropWhile (fun c => c == ' ')).reverse :=
    List.Sublist.mem h (List.dropWhile_suffix _).sublist
  rw [List.mem_reverse] at h2
  exact List.Sublist.mem h2 (List.dropWhile_suffix _).sublist

/-- The NFKD stage fixes a list of canonical-form characters. -/
theorem nfkd_stage_fix {y : List Char} (hy : ∀ c ∈ y, goodChar c = true) :
    (y.map nfkdChar).flatten = y := by
  induction y with
  | nil => rfl
  | cons c cs ih =>
    simp only [List.map_cons, List.flatten_cons]
    rw [nfkdChar_fix_of_goodChar (hy c (List.mem_cons_self c cs)),
      ih (fun d hd => hy d (List.mem_cons_of_mem _ hd))]
    rfl

/-- The combining-mark filter fixes a list of canonical-form characters. -/
theorem combining_stage_fix {y : List Char} (hy : ∀ c ∈ y, goodChar c = true) :
    y.filter (fun c => !isCombining c) = y :=
  List.filter_eq_self.mpr fun c hc => isCombining_false_of_goodChar (hy c hc)

/-- The punctuation removal fixes a list of canonical-form characters. -/
theorem punct_stage_fix {y : List Char} (hy : ∀ c ∈ y, goodChar c = true) :
    y.filter (fun c => !(c == '.' || c == ',' || c == Char.ofNat 39)) = y :=
  List.filter_eq_self.mpr fun c hc => punct_false_of_goodChar (hy c hc)

/-- The hyphen replacement fixes a list of canonical-form characters. -/
theorem hyphen_stage_fix {y : List Char} (hy : ∀ c ∈ y, goodChar c = true) :
    y.map (fun c => if c == '-' then ' ' else c) = y :=
  (List.map_congr_left fun c hc => hyphen_fix_of_goodChar (hy c hc)).trans (List.map_id y)

/-- The `[a-zA-Z0-9 ]` scrub fixes a list of canonical-form characters. -/
theorem alnumspace_stage_fix {y : List Char} (hy : ∀ c ∈ y, goodChar c = true) :
    y.filter (fun c => c.isAlphanum || c == ' ') = y :=
  List.filter_eq_self.mpr fun c hc => alnum_or_space_of_goodChar (hy c hc)

/-- Lowercasing fixes a list of canonical-form characters. -/
theorem toLower_stage_fix {y : List Char} (hy : ∀ c ∈ y, goodChar c = true) :
    y.map Char.toLower = y :=
  (List.map_congr_left fun c hc => toLower_fix_of_goodChar (hy c hc)).trans (List.map_id y)

/-- Every character of a canonical form is a lowercase letter, a digit, or a
space. -/
theorem canonList_good (s : List Char) : ∀ c ∈ canonList s, goodChar c = true := by
  intro c hc
  simp only [canonList] at hc
  obtain ⟨d, hd, rfl⟩ := List.mem_map.mp hc
  have hd6 := mem_collapseSpaces (mem_stripSpace hd)
  exact goodChar_toLower (List.mem_filter.mp hd6).2

/-- A canonical form has no two adjacent spaces. -/
theorem canonList_chain' (s : List Char) : List.Chain' spacedOK (canonList s) := by
  simp only [canonList]
  exact chain'_spaced_map_toLower (stripSpace_chain' (collapseSpaces_chain' _ false))

/-- A canonical form has no leading space. -/
theorem canonList_head (s : List Char) :
    ∀ a, (canonList s).head? = some a → a ≠ ' ' := by
  intro a ha
  simp only [canonList] at ha
  rw [List.head?_map] at ha
  cases hh : (stripSpace
      (collapseSpaces (List.filter (fun c => c.isAlphanum || c == ' ')
        (removeSuffixTokens []
          (List.map (fun c => if c == '-' then ' ' else c)
            (List.filter (fun c => !(c == '.' || c == ',' || c == Char.ofNat 39))
              (List.filter (fun c => !isCombining c) (List.map nfkdChar s).flatten)))))
        false)).head? with
  | none => rw [hh] at ha; cases ha
  | some d =>
    rw [hh] at ha
    have ha2 : Char.toLower d = a := by simpa using ha
    subst ha2
    intro hsp
    exact stripSpace_head _ d hh (eq_space_of_toLower hsp)

/-- A canonical form has no trailing space. -/
theorem canonList_getLast (s : List Char) :
    ∀ a, (canonList s).getLast? = some a → a ≠ ' ' := by
  intro a ha
  simp only [canonList] at ha
  rw [List.getLast?_map] at ha
  cases hh : (stripSpace
      (collapseSpaces (List.filter (fun c => c.isAlphanum || c == ' ')
        (removeSuffixTokens []
          (List.map (fun c => if c == '-' then ' ' else c)
            (List.filter (fun c => !(c == '.' || c == ',' || c == Char.ofNat 39))
              (List.filter (fun c => !isCombining c) (List.map nfkdChar s).flatten)))))
        false)).getLast? with
  | none => rw [hh] at ha; cases ha
  | some d =>
    rw [hh] at ha
    have ha2 : Char.toLower d = a := by simpa using ha
    subst ha2
    intro hsp
    exact stripSpace_getLast _ d hh (eq_space_of_toLower hsp)

/-- A list of canonical-form characters with normalized spacing on which the
suffix-removal acts trivially is a fixed point of the whole pipeline. -/
theorem canonList_fix {y : List Char} (hy : ∀ c ∈ y, goodChar c = true)
    (hchain : List.Chain' spacedOK y)
    (hhead : ∀ a, y.head? = some a → a ≠ ' ')
    (hlast : ∀ a, y.getLast? = some a → a ≠ ' ')
    (hsuffix : removeSuffixTokens [] y = y) :
    canonList y = y := by
  simp only [canonList]
  rw [nfkd_stage_fix hy, combining_stage_fix hy, punct_stage_fix hy, hyphen_stage_fix hy,
    hsuffix, alnumspace_stage_fix hy,
    collapseSpaces_fix hchain false (fun hfalse => by cases hfalse),
    stripSpace_fix hhead hlast, toLower_stage_fix hy]

/-- C1 (amended): the canonicalizer is idempotent on every input whose
canonical form is untouched by the generational-suffix removal (in
particular, whenever the canonical form contains no standalone
`jr`/`sr`/`ii`/`iii`/`iv`/`v` token). -/
theorem canonicalize_idem_of_no_suffix_token (x : String)
    (h : removeSuffixTokens [] (canonList x.data) = canonList x.data) :
    _canonicalize (_canonicalize x) = _canonicalize x := by
  unfold _canonicalize
  exact congrArg String.mk (canonList_fix (canonList_good x.data) (canonList_chain' x.data)
    (canonList_head x.data) (canonList_getLast x.data) h)

set_option maxHeartbeats 1000000 in
/-- Witness for `canonicalize_idem_of_no_suffix_token` at a concrete name. -/
theorem canonicalize_idem_witness :
    removeSuffixTokens [] (canonList ("Al Horford" : String).data)
        = canonList ("Al Horford" : String).data
    ∧ _canonicalize (_canonicalize "Al Horford") = _canonicalize "Al Horford" :=
  ⟨by decide, canonicalize_idem_of_no_suffix_token "Al Horford" (by decide)⟩

/-- C1 counterexample: the canonicalizer is not idempotent.  On `"i$i"` the
dollar sign is scrubbed only after the suffix-word removal, leaving the
canonical form `"ii"`, which a second canonicalization deletes as a
generational suffix.  In particular `"ii"` is its own canonical form's
input: it is canonical (the image of `"i$i"`), yet canonicalizing it yields
`""`, not itself. -/
theorem canonicalize_not_idempotent :
    _canonicalize (_canonicalize "i$i") ≠ _canonicalize "i$i"
    ∧ _canonicalize "i$i" = "ii"
    ∧ _canonicalize "ii" = "" := by
  refine ⟨?_, by decide, by decide⟩
  decide

end NDF

